import Mathlib

/-!
Verification of the okapi OpenAPI specification-generation engine.

Rust strings are modelled as lists of characters (`Str`), Rust `Option`
as `Option`, fallible functions as `Except`.  Components embedded from
the sources:

- rocket-okapi-codegen/src/openapi_attr/route_attr.rs: the route
  descriptor parser (primary structured parser and string-splitting
  fallback), path/query parameter extraction.
- rocket-okapi-codegen/src/openapi_attr/doc_attr.rs: the doc-comment
  extractor.
- rocket-okapi-codegen/src/openapi_spec.rs: the default operation-id
  computation.
- rocket-okapi/src/request/from_form_multi_param_impls.rs: nested form
  parameter flattening.

The okapi merge engine (okapi/src/merge.rs) and the OpenApiGenerator
(rocket-okapi/src/gen.rs) are not part of the provided sources; they are
modelled from the specification text and pinned to the behaviour their
in-repository tests (okapi/tests/merge.rs, rocket-okapi/tests/gen.rs)
assert, as stated in their doc comments.
-/

namespace Okapi

/-- Rust strings are modelled as lists of characters. -/
abbrev Str := List Char

/-- The double-quote character. -/
def qc : Char := Char.ofNat 34

/-- The single-quote character. -/
def apos : Char := Char.ofNat 39

/-- The backslash character. -/
def bslash : Char := Char.ofNat 92

/-- The newline character. -/
def nl : Char := Char.ofNat 10

/-- ASCII whitespace, the fragment of Rust char::is_whitespace relevant
to the embedded code (the inputs are attribute and doc text). -/
def isWS (c : Char) : Bool :=
  c = ' ' || c = Char.ofNat 9 || c = nl || c = Char.ofNat 13

/-- Drop trailing characters satisfying a predicate. -/
def dropEndWhile (p : Char → Bool) (s : Str) : Str :=
  (s.reverse.dropWhile p).reverse

/-- Rust str::trim (restricted to ASCII whitespace). -/
def trim (s : Str) : Str :=
  dropEndWhile isWS (s.dropWhile isWS)

/-- Rust str::split on a single character: always returns at least one
(possibly empty) piece. -/
def splitOnChar (c : Char) : Str → List Str
  | [] => [[]]
  | x :: xs =>
    if x = c then [] :: splitOnChar c xs
    else
      match splitOnChar c xs with
      | [] => [[x]]
      | h :: t => (x :: h) :: t

/-- Prepend a character onto the first piece of a split result. -/
def consHead (c : Char) : List Str → List Str
  | [] => [[c]]
  | h :: t => (c :: h) :: t

/-- Rust str::split on the two-character pattern of two consecutive
newlines (non-overlapping, scanned left to right). -/
def splitOnNlNl : Str → List Str
  | [] => [[]]
  | [c] => [[c]]
  | c :: c2 :: rest =>
    if c = nl ∧ c2 = nl then [] :: splitOnNlNl rest
    else consHead c (splitOnNlNl (c2 :: rest))

/-- Rust str::replace of one character by another. -/
def replaceChar (a b : Char) (s : Str) : Str :=
  s.map fun c => if c = a then b else c

/-- Rust str::strip_prefix: remove a leading pattern when present. -/
def dropPfx : Str → Str → Option Str
  | [], s => some s
  | _, [] => none
  | p0 :: pr, s0 :: sr => if p0 = s0 then dropPfx pr sr else none

/-- Rust str::join with a separator. -/
def joinSep (sep : Str) : List Str → Str
  | [] => []
  | [a] => a
  | a :: rest => a ++ sep ++ joinSep sep rest

/-- Rust str::trim_matches for the double-quote character. -/
def trimMatchesQ (s : Str) : Str :=
  dropEndWhile (fun c => c = qc) (s.dropWhile fun c => c = qc)

/-- Rust str::trim_matches for double- or single-quote characters. -/
def trimMatchesQA (s : Str) : Str :=
  dropEndWhile (fun c => c = qc || c = apos) (s.dropWhile fun c => c = qc || c = apos)

/-- Lowercase a string character-wise (ASCII). -/
def lowerStr (s : Str) : Str := s.map Char.toLower

/-! ## HTTP methods and route origins (rocket_http collaborators) -/

/-- The HTTP methods known to rocket_http::Method. -/
inductive Method where
  | get | put | post | delete | options | head | trace | connect | patch
  deriving DecidableEq, Repr

/-- Modelled external collaborator rocket_http Method::from_str, which
compares case-insensitively against the fixed method set. -/
def methodFromStr (s : Str) : Option Method :=
  let l := lowerStr s
  if l = "get".toList then some .get
  else if l = "put".toList then some .put
  else if l = "post".toList then some .post
  else if l = "delete".toList then some .delete
  else if l = "options".toList then some .options
  else if l = "head".toList then some .head
  else if l = "trace".toList then some .trace
  else if l = "connect".toList then some .connect
  else if l = "patch".toList then some .patch
  else none

/-- A route origin: a path and an optional query component. -/
structure Origin where
  path : Str
  query : Option Str
  deriving DecidableEq, Repr

/-- Modelled external collaborator rocket_http Origin::parse_route:
route origins must start with a slash; the query component is whatever
follows the first question mark.  Both route-attribute parsers delegate
to this same function. -/
def parseRoute (s : Str) : Option Origin :=
  if s.head? = some '/' then
    match s.dropWhile (fun c => ¬ c = '?') with
    | [] => some ⟨s, none⟩
    | _ :: q => some ⟨s.takeWhile (fun c => ¬ c = '?'), some q⟩
  else none

/-- Modelled external collaborator rocket_http MediaType::parse_flexible
over a representative table of shorthands and full media types; returns
the canonical media type string.  Both parsers share this table. -/
def mediaParse (s : Str) : Option Str :=
  if s = "json".toList ∨ s = "application/json".toList then
    some "application/json".toList
  else if s = "xml".toList ∨ s = "text/xml".toList then
    some "text/xml".toList
  else if s = "plain".toList ∨ s = "text/plain".toList then
    some "text/plain".toList
  else if s = "html".toList ∨ s = "text/html".toList then
    some "text/html".toList
  else if s = "form".toList ∨ s = "application/x-www-form-urlencoded".toList then
    some "application/x-www-form-urlencoded".toList
  else if s = "binary".toList ∨ s = "application/octet-stream".toList then
    some "application/octet-stream".toList
  else if s = "msgpack".toList ∨ s = "application/msgpack".toList then
    some "application/msgpack".toList
  else none

/-! ## The Route structure (route_attr.rs) -/

/-- route_attr.rs struct Route: method, origin, optional media type
(canonical string), optional body-data parameter name. -/
structure Route where
  method : Method
  origin : Origin
  mediaType : Option Str
  dataParam : Option Str
  deriving DecidableEq, Repr

/-- Segments of a route path: rocket splits on slashes and skips empty
segments. -/
def pathSegments (o : Origin) : List Str :=
  (splitOnChar '/' o.path).filter fun s => ¬ s = []

/-- The single-value placeholder filter used by Route::path_params and
Route::query_params: a token of the form angle-name-angle that is not a
trailing multi-segment placeholder; yields the inner name. -/
def placeholderSingle (s : Str) : Option Str :=
  if s.head? = some '<' ∧ List.isSuffixOf ">".toList s ∧
      ¬ List.isSuffixOf "..>".toList s then
    some s.tail.dropLast
  else none

/-- The multi-segment placeholder filter used by Route::path_multi_param
and Route::query_multi_params; yields the inner name without the two
dots. -/
def placeholderMulti (s : Str) : Option Str :=
  if s.head? = some '<' ∧ List.isSuffixOf "..>".toList s then
    some (s.tail.take (s.tail.length - 3))
  else none

/-- Route::path_params: single-value placeholders among path segments. -/
def pathParams (r : Route) : List Str :=
  (pathSegments r.origin).filterMap placeholderSingle

/-- Route::path_multi_param: the first multi-segment path placeholder. -/
def pathMultiParam (r : Route) : Option Str :=
  (pathSegments r.origin).findSome? placeholderMulti

/-- The ampersand-separated query tokens of a route, empty when the
origin has no query component. -/
def queryTokens (r : Route) : List Str :=
  match r.origin.query with
  | none => []
  | some q => splitOnChar '&' q

/-- Route::query_params: single-value placeholders among the
ampersand-separated query tokens. -/
def queryParams (r : Route) : List Str :=
  (queryTokens r).filterMap placeholderSingle

/-- Route::query_multi_params: multi-value placeholders among the query
tokens. -/
def queryMultiParams (r : Route) : List Str :=
  (queryTokens r).filterMap placeholderMulti

/-- route_attr.rs trim_angle_brackers: strip one pair of surrounding
angle brackets when both are present. -/
def trimAngle (s : Str) : Str :=
  if s.head? = some '<' ∧ s.getLast? = some '>' then s.tail.dropLast else s

/-! ## The primary structured parser (route_attr.rs) -/

/-- Error kinds of the attribute parsers (darling::Error summarized at
the kind level). -/
inductive AttrErr where
  | tooFewItems
  | unknownMethod
  | unknownMedia
  | badPath
  | notImplemented
  | duplicateField
  | missingField
  | unexpectedFormat
  | protectMisparse
  | noRouteAttribute
  deriving DecidableEq, Repr

/-- A parsed attribute argument: a positional string literal, or a named
argument with a string-literal value. -/
inductive Arg where
  | pos (s : Str)
  | named (k : Str) (v : Str)
  deriving DecidableEq, Repr

/-- The values of all named arguments with the given key. -/
def findNamed (k : Str) (args : List Arg) : List Str :=
  args.filterMap fun a =>
    match a with
    | .named k2 v => if k2 = k then some v else none
    | .pos _ => none

/-- Whether an argument is positional. -/
def isPos (a : Arg) : Bool :=
  match a with
  | .pos _ => true
  | .named _ _ => false

/-- darling from_list for MethodRouteAttributeNamedMeta: optional format
and data fields, unknown fields allowed, duplicates and stray positional
literals rejected; the format value must be a known media type. -/
def fromListNamed (args : List Arg) : Except AttrErr (Option Str × Option Str) :=
  if args.any isPos then .error .unexpectedFormat
  else if 2 ≤ (findNamed "format".toList args).length ∨
      2 ≤ (findNamed "data".toList args).length then .error .duplicateField
  else
    match (findNamed "format".toList args).head? with
    | some v =>
      match mediaParse v with
      | some mt => .ok (some mt, (findNamed "data".toList args).head?)
      | none => .error .unknownMedia
    | none => .ok (none, (findNamed "data".toList args).head?)

/-- route_attr.rs parse_method_route_attr: the first positional argument
is the route origin; the remaining named arguments supply format and
data. -/
def parseMethodRouteAttr (m : Method) (args : List Arg) : Except AttrErr Route :=
  match args with
  | [] => .error .tooFewItems
  | a0 :: rest =>
    match a0 with
    | .pos p =>
      match parseRoute p with
      | some o =>
        match fromListNamed rest with
        | .ok (mt, dp) => .ok ⟨m, o, mt, dp.map trimAngle⟩
        | .error e => .error e
      | none => .error .badPath
    | .named _ _ => .error .unexpectedFormat

/-- route_attr.rs parse_route_attr: the first argument is the method
keyword, and the path comes from a required named path argument; a first
string literal starting with a slash is rejected defensively. -/
def parseRouteAttrForm (args : List Arg) : Except AttrErr Route :=
  match args with
  | [] => .error .tooFewItems
  | a0 :: rest =>
    match a0 with
    | .pos s =>
      if s.head? = some '/' then .error .protectMisparse
      else
        match methodFromStr s with
        | some m =>
          if rest.any isPos then .error .unexpectedFormat
          else if 2 ≤ (findNamed "path".toList rest).length ∨
              2 ≤ (findNamed "format".toList rest).length ∨
              2 ≤ (findNamed "data".toList rest).length then .error .duplicateField
          else
            match (findNamed "path".toList rest).head? with
            | some ps =>
              match parseRoute ps with
              | some o =>
                match (findNamed "format".toList rest).head? with
                | some v =>
                  match mediaParse v with
                  | some mt =>
                    .ok ⟨m, o, some mt, ((findNamed "data".toList rest).head?).map trimAngle⟩
                  | none => .error .unknownMedia
                | none =>
                  .ok ⟨m, o, none, ((findNamed "data".toList rest).head?).map trimAngle⟩
              | none => .error .badPath
            | none => .error .missingField
        | none => .error .unknownMethod
    | .named _ _ => .error .unexpectedFormat

/-- The protect-attribute name marker. -/
def pfxProtect : Str := ['p', 'r', 'o', 't', 'e', 'c', 't', '_']

/-- route_attr.rs parse_attr: resolve the attribute name as a method
keyword (stripping a protect marker first when present); names that are
not methods fall back to the route form. -/
def parse_attr (name : Str) (args : List Arg) : Except AttrErr Route :=
  match dropPfx pfxProtect name with
  | some rest =>
    match methodFromStr rest with
    | some m => parseMethodRouteAttr m args
    | none => .error .unknownMethod
  | none =>
    match methodFromStr name with
    | some m => parseMethodRouteAttr m args
    | none => parseRouteAttrForm args

/-! ## The string-splitting fallback parser (route_attr.rs) -/

/-- Worker for parse_args_string_to_parts: split on top-level commas,
respecting double-quoted strings and backslash escapes; every piece is
trimmed, and a final all-whitespace piece is dropped. -/
def splitPartsGo : Str → Str → Bool → Bool → List Str
  | [], cur, _, _ => if trim cur = [] then [] else [trim cur]
  | c :: rest, cur, inQ, esc =>
    if esc then splitPartsGo rest (cur ++ [c]) inQ false
    else if c = bslash then splitPartsGo rest (cur ++ [c]) inQ true
    else if c = qc then splitPartsGo rest (cur ++ [c]) (!inQ) false
    else if c = ',' ∧ inQ = false then trim cur :: splitPartsGo rest [] inQ false
    else splitPartsGo rest (cur ++ [c]) inQ false

/-- route_attr.rs parse_args_string_to_parts. -/
def splitParts (s : Str) : List Str :=
  splitPartsGo s [] false false

/-- The format-argument marker scanned for by the fallback parser. -/
def fmtEqStr : Str := ['f', 'o', 'r', 'm', 'a', 't', ' ', '=']

/-- The data-argument marker scanned for by the fallback parser. -/
def dataEqStr : Str := ['d', 'a', 't', 'a', ' ', '=']

/-- Whether a part is a double-quoted string. -/
def isQuoted (part : Str) : Bool :=
  part.head? = some qc && part.getLast? = some qc

/-- The scanning loop of parse_attr_from_attr: the first quoted part is
the path; format and data named parts are collected (later occurrences
overwrite), with an unknown media type reported immediately; all other
parts are ignored. -/
def scanParts : List Str → Option Str → Option Str → Option Str →
    Except AttrErr (Option Str × Option Str × Option Str)
  | [], p, m, d => .ok (p, m, d)
  | part :: rest, p, m, d =>
    if isQuoted part ∧ p = none then
      scanParts rest (some (trimMatchesQ part)) m d
    else
      match dropPfx fmtEqStr part with
      | some rv =>
        match mediaParse (trimMatchesQA (trim rv)) with
        | some mt => scanParts rest p (some mt) d
        | none => .error .unknownMedia
      | none =>
        match dropPfx dataEqStr part with
        | some rv => scanParts rest p m (some (trimMatchesQA (trim rv)))
        | none => scanParts rest p m d

/-- The shared tail of both method branches of parse_attr_from_attr:
require the collected path, parse it as a route origin, and build the
Route from the collected format and data values. -/
def resolvePath (m : Method) (path? media? data? : Option Str) :
    Except AttrErr Route :=
  match path? with
  | some p =>
    match parseRoute p with
    | some o => .ok ⟨m, o, media?, data?.map trimAngle⟩
    | none => .error .badPath
  | none => .error .tooFewItems

/-- The method-resolution tail of parse_attr_from_attr: strip a protect
marker and resolve the remainder, reject the unimplemented route
attribute, otherwise resolve the name itself as a method keyword. -/
def resolveMethodPath (name : Str) (path? media? data? : Option Str) :
    Except AttrErr Route :=
  match dropPfx pfxProtect name with
  | some rest =>
    match methodFromStr rest with
    | some m => resolvePath m path? media? data?
    | none => .error .unknownMethod
  | none =>
    if name = "route".toList then .error .notImplemented
    else
      match methodFromStr name with
      | some m => resolvePath m path? media? data?
      | none => .error .unknownMethod

/-- route_attr.rs parse_attr_from_attr: split the raw argument string
into parts, collect path, format and data, then resolve the method from
the attribute name (protect-marked names are stripped first, the route
attribute is not implemented). -/
def parseAttrFromAttr (name : Str) (argsStr : Str) : Except AttrErr Route :=
  match scanParts (splitParts argsStr) none none none with
  | .error e => .error e
  | .ok (path?, media?, data?) => resolveMethodPath name path? media? data?

/-- route_attr.rs is_route_attribute: the recognized attribute names. -/
def isRouteAttribute (name : Str) : Bool :=
  name = "get".toList || name = "put".toList || name = "post".toList ||
  name = "delete".toList || name = "options".toList || name = "head".toList ||
  name = "trace".toList || name = "connect".toList || name = "patch".toList ||
  name = "route".toList || name = "protect_get".toList || name = "protect_put".toList ||
  name = "protect_post".toList || name = "protect_delete".toList ||
  name = "protect_patch".toList || name = "protect_options".toList

/-- route_attr.rs parse_attrs: find the first recognized route attribute
(name together with its raw argument string) and run the fallback parser
on it; report a compile error when none is found. -/
def parseAttrs (attrs : List (Str × Str)) : Except AttrErr Route :=
  match attrs.find? (fun a => isRouteAttribute a.1) with
  | some a => parseAttrFromAttr a.1 a.2
  | none => .error .noRouteAttribute

/-- The method the attribute name resolves to, for either parser: a
protect-marked name is stripped first, otherwise the name itself must be
a method keyword. -/
def methodOfName (name : Str) : Option Method :=
  match dropPfx pfxProtect name with
  | some rest => methodFromStr rest
  | none => methodFromStr name

/-- Whether an Except value is a success. -/
def isOkE {ε α : Type} (e : Except ε α) : Bool :=
  match e with
  | .ok _ => true
  | .error _ => false

/-- The first double-quoted part of a split argument string. -/
def firstQuoted (parts : List Str) : Option Str :=
  parts.find? isQuoted

/-- Whether a part is a format argument naming an unknown media type. -/
def isFmtBad (part : Str) : Bool :=
  match dropPfx fmtEqStr part with
  | some rv => (mediaParse (trimMatchesQA (trim rv))).isNone
  | none => false

/-- Rendering of a structured attribute argument back to the surface
token text the fallback parser receives (string literals quoted, named
arguments with spaces around the equals sign). -/
def renderArg (a : Arg) : Str :=
  match a with
  | .pos s => qc :: s ++ [qc]
  | .named k v => k ++ " = ".toList ++ (qc :: v ++ [qc])

/-! ## Doc-comment extractor (doc_attr.rs) -/

/-- doc_attr.rs none_if_empty: the truly empty string becomes None,
every other string is kept as is. -/
def noneIfEmpty (s : Str) : Option Str :=
  if s = [] then none else some s

/-- doc_attr.rs get_doc: split each doc-attribute value into lines, trim
each line, skip leading empty lines, rejoin with newlines, and map the
empty result to None. -/
def getDoc (docs : List Str) : Option Str :=
  noneIfEmpty (joinSep [nl]
    (((docs.flatMap (splitOnChar nl)).map trim).dropWhile fun l => l = []))

/-- doc_attr.rs merge_description_lines: trim, split on blank-line
boundaries, trim each paragraph and collapse its newlines to spaces,
drop empty paragraphs, rejoin with blank lines, and map the empty result
to None. -/
def mergeDescriptionLines (doc : Str) : Option Str :=
  noneIfEmpty (joinSep "\n\n".toList
    ((splitOnNlNl (trim doc)).filterMap fun line =>
      noneIfEmpty (replaceChar nl ' ' (trim line))))

/-- doc_attr.rs get_title_and_desc_from_doc: when the normalized doc
text begins with a hash, the first line minus leading hashes and
surrounding whitespace is the title and the remainder is the paragraph
merged description; otherwise the whole text is paragraph merged.  The
Rust splitn two-way split at the first newline is embedded as
takeWhile and dropWhile at that newline. -/
def titleDescCore (doc : Str) : Option Str × Option Str :=
  if doc.head? = some '#' then
    let title := trim ((doc.takeWhile fun c => ¬ c = nl).dropWhile fun c => c = '#')
    let maybeDesc :=
      match doc.dropWhile (fun c => ¬ c = nl) with
      | [] => none
      | _ :: restD => mergeDescriptionLines restD
    (noneIfEmpty title, maybeDesc)
  else (none, mergeDescriptionLines doc)

/-- The wrapper of doc_attr.rs get_title_and_desc_from_doc: extract the
normalized doc text and hand it to the core. -/
def getTitleAndDescFromDoc (docs : List Str) : Option Str × Option Str :=
  match getDoc docs with
  | none => (none, none)
  | some doc => titleDescCore doc

/-- Written from the specification words for comparison: the text up to
the first newline, read off the line decomposition of the doc text. -/
def specFirstLine (doc : Str) : Str :=
  (splitOnChar nl doc).headD []

/-- Written from the specification words for comparison: everything
after the first newline, when a newline exists, read off the line
decomposition of the doc text. -/
def specAfterFirstNl (doc : Str) : Option Str :=
  match splitOnChar nl doc with
  | [] => none
  | [_] => none
  | _ :: rest => some (joinSep [nl] rest)

/-- Written from the specification words for comparison: the title is
the first line minus leading hash characters and surrounding
whitespace. -/
def specTitle (doc : Str) : Str :=
  trim ((specFirstLine doc).dropWhile fun c => c = '#')

/-- Written from the specification words for comparison: split on
blank-line boundaries, trim each paragraph, collapse internal newlines
to spaces, drop the empty paragraphs, rejoin with blank lines. -/
def specParagraphMerge (doc : Str) : Str :=
  joinSep "\n\n".toList
    (((splitOnNlNl (trim doc)).map fun p => replaceChar nl ' ' (trim p)).filter
      fun p => ¬ p = [])

/-! ## Json values and nested form parameters
(from_form_multi_param_impls.rs) -/

/-- serde_json values (numbers restricted to integers, which suffices
for the embedded code, none of which inspects numbers). -/
inductive Json where
  | null
  | bool (b : Bool)
  | num (n : Int)
  | str (s : Str)
  | arr (l : List Json)
  | obj (fields : List (Str × Json))

/-- Association-list lookup (serde_json object field access): the first
entry under the key wins. -/
def lookupA {α : Type} : List (Str × α) → Str → Option α
  | [], _ => none
  | e :: l, k => if e.1 = k then some e.2 else lookupA l k

/-- Replace the value stored under an existing key. -/
def updateA {α : Type} (l : List (Str × α)) (k : Str) (v : α) : List (Str × α) :=
  l.map fun e => if e.1 = k then (k, v) else e

/-- The number of entries stored under a key. -/
def countKey {α : Type} : List (Str × α) → Str → Nat
  | [], _ => 0
  | e :: l, k => (if e.1 = k then 1 else 0) + countKey l k

/-- The properties map of a schema object: present only when the schema
is an object whose properties field is an object. -/
def propertiesOf (schema : Json) : List (Str × Json) :=
  match schema with
  | .obj fields =>
    match lookupA fields "properties".toList with
    | some (.obj m) => m
    | _ => []
  | _ => []

/-- Schema try_into conversion: schemas are objects or booleans; any
other value falls back to the default empty schema. -/
def tryIntoSchema (v : Json) : Json :=
  match v with
  | .obj _ => v
  | .bool _ => v
  | _ => .obj []

/-- as_object followed by field access on a schema. -/
def getField (schema : Json) (k : Str) : Option Json :=
  match schema with
  | .obj fields => lookupA fields k
  | _ => none

/-- Whether the schema carries nullable equal to true (field access
followed by as_bool compared with true). -/
def nullableTrue (schema : Json) : Bool :=
  match getField schema "nullable".toList with
  | some (.bool b) => b
  | _ => false

/-- The description string of a schema, when present. -/
def descriptionOf (schema : Json) : Option Str :=
  match getField schema "description".toList with
  | some (.str s) => some s
  | _ => none

/-- openapi3 Parameter restricted to the fields the embedded code
writes. -/
structure Parameter where
  name : Str
  location : Str
  description : Option Str
  required : Bool
  deprecated : Bool
  allowEmptyValue : Bool
  schema : Json

/-- from_form_multi_param_impls.rs parameter_from_schema: a query
parameter whose required flag is cleared when the schema is nullable. -/
def parameterFromSchema (schema : Json) (name : Str) (required : Bool) : Parameter :=
  let required2 := if required ∧ nullableTrue schema then false else required
  ⟨name, "query".toList, descriptionOf schema, required2, false, false, schema⟩

/-- from_form_multi_param_impls.rs get_nested_form_parameters,
parametrized by the schema the generator derives for the bound type
(the external schemars capability): one parameter per top-level
property when the properties map is non-empty, otherwise a single
parameter under the binding name. -/
def getNestedFormParameters (schema : Json) (name : Str) (required : Bool) :
    List Parameter :=
  let props := propertiesOf schema
  if props.isEmpty then [parameterFromSchema schema name required]
  else props.map fun kv => parameterFromSchema (tryIntoSchema kv.2) kv.1 required

/-! ## Operations, path items and the merge engine -/

/-- An OpenAPI operation, restricted to the operation id (the only field
the settled claims inspect; operations with distinct ids are
distinguishable). -/
structure Operation where
  opId : Option Str
  deriving DecidableEq, Repr

/-- An OpenAPI 3.0 path item: one optional operation per HTTP method
slot (the OpenAPI path item has no CONNECT slot). -/
structure PathItem where
  get : Option Operation := none
  put : Option Operation := none
  post : Option Operation := none
  delete : Option Operation := none
  options : Option Operation := none
  head : Option Operation := none
  patch : Option Operation := none
  trace : Option Operation := none
  deriving DecidableEq, Repr

/-- Modelled from the spec: okapi merge_option (okapi/src/merge.rs is
not among the sources); first-wins, the base value is kept when set. -/
def mergeOption {α : Type} (a b : Option α) : Option α :=
  match a with
  | some x => some x
  | none => b

/-- The operation stored in a path item slot, by method; the CONNECT
slot does not exist in OpenAPI 3.0. -/
def getOp (pi : PathItem) (m : Method) : Option Operation :=
  match m with
  | .get => pi.get
  | .put => pi.put
  | .post => pi.post
  | .delete => pi.delete
  | .options => pi.options
  | .head => pi.head
  | .patch => pi.patch
  | .trace => pi.trace
  | .connect => none

/-- Set a path item slot, by method; CONNECT operations are dropped
since OpenAPI 3.0 path items have no such slot. -/
def setOp (pi : PathItem) (m : Method) (op : Operation) : PathItem :=
  match m with
  | .get => { pi with get := some op }
  | .put => { pi with put := some op }
  | .post => { pi with post := some op }
  | .delete => { pi with delete := some op }
  | .options => { pi with options := some op }
  | .head => { pi with head := some op }
  | .patch => { pi with patch := some op }
  | .trace => { pi with trace := some op }
  | .connect => pi

/-- Modelled from the spec: okapi merge of two path items at method
granularity (okapi/src/merge.rs is not among the sources); for a method
present in both the base operation is kept, a method present only in
the fragment is added. -/
def mergePathItem (a b : PathItem) : PathItem :=
  ⟨mergeOption a.get b.get, mergeOption a.put b.put, mergeOption a.post b.post,
   mergeOption a.delete b.delete, mergeOption a.options b.options,
   mergeOption a.head b.head, mergeOption a.patch b.patch,
   mergeOption a.trace b.trace⟩

/-- Modelled from the spec: the merge engine rewrites a fragment path
key by prepending the path prefix; the worked example in the spec
(fragment key /x under prefix /base/ giving /base/x) pins that the
fragment key's leading slashes are dropped before prepending. -/
def rewriteKey (pfxPath k : Str) : Str :=
  pfxPath ++ k.dropWhile fun c => c = '/'

/-- One merge step: insert a single rewritten fragment entry into the
accumulated path map, merging with an existing entry at method
granularity. -/
def mergeStep (pfxPath : Str) (acc : List (Str × PathItem))
    (e : Str × PathItem) : List (Str × PathItem) :=
  match lookupA acc (rewriteKey pfxPath e.1) with
  | some ex => updateA acc (rewriteKey pfxPath e.1) (mergePathItem ex e.2)
  | none => acc ++ [(rewriteKey pfxPath e.1, e.2)]

/-- Modelled from the spec: okapi merge_paths (okapi/src/merge.rs is not
among the sources).  Every fragment path key is rewritten under the
prefix; when the rewritten key exists in the base the path items are
merged at method granularity with the base winning per method, and
otherwise the whole fragment path item is inserted. -/
def mergePaths (base : List (Str × PathItem)) (pfxPath : Str)
    (frag : List (Str × PathItem)) : List (Str × PathItem) :=
  frag.foldl (mergeStep pfxPath) base

/-! ## The OpenApiGenerator accumulator -/

/-- openapi_spec.rs operation_id: the default operation id is the
handler path's identifier segments joined with underscores. -/
def operationIdOfPath (segs : List Str) : Str :=
  joinSep "_".toList segs

/-- Replace every double-colon separator by an underscore, scanning left
to right. -/
def replaceSep : Str → Str
  | [] => []
  | [c] => [c]
  | c :: c2 :: rest =>
    if c = ':' ∧ c2 = ':' then '_' :: replaceSep rest
    else c :: replaceSep (c2 :: rest)

/-- Modelled from the spec and pinned by rocket-okapi/tests/gen.rs
(rocket-okapi/src/gen.rs is not among the sources): the operation-id
flattening the generator applies to every stored id, trimming leading
colons and replacing double-colon separators by underscores; the test
asserts that the stored id ::module::action is served as
module_action. -/
def normalizeOpId (s : Str) : Str :=
  replaceSep (s.dropWhile fun c => c = ':')

/-- Modelled from the spec: the operation-id chosen by the synthesizer,
an explicit attribute value overriding the default fully-qualified
handler path id (the code-generation glue openapi_attr/mod.rs is not
among the sources). -/
def chosenOperationId (explicit : Option Str) (segs : List Str) : Str :=
  match explicit with
  | some e => e
  | none => operationIdOfPath segs

/-- Modelled from the spec: the build-scoped generator accumulator,
restricted to its list of stored operations keyed by path and method. -/
structure Generator where
  operations : List (Str × Method × Operation)
  deriving Repr

/-- Modelled from the spec: OpenApiGenerator::add_operation appends the
operation to the accumulator. -/
def addOperation (g : Generator) (path : Str) (m : Method) (op : Operation) :
    Generator :=
  ⟨g.operations ++ [(path, m, op)]⟩

/-- Modelled from the spec and rocket-okapi/tests/gen.rs: into_openapi
finalizes the accumulator into the path map, creating a path item on
first use of a path, filling the method slot, and flattening every
stored operation id. -/
def intoOpenapi (g : Generator) : List (Str × PathItem) :=
  g.operations.foldl
    (fun acc e =>
      let op2 : Operation := ⟨e.2.2.opId.map normalizeOpId⟩
      match lookupA acc e.1 with
      | some pi => updateA acc e.1 (setOp pi e.2.1 op2)
      | none => acc ++ [(e.1, setOp {} e.2.1 op2)])
    []

/-! ## The schema registry (json_schema idempotence) -/

/-- Modelled from the spec: the schema registry of one generator build,
mapping a type name to its produced schema definition. -/
structure SchemaGen where
  defs : List (Str × Json)

/-- A schema reference into the component registry. -/
def refSchema (t : Str) : Json :=
  .obj [("$ref".toList, .str ("#/components/schemas/".toList ++ t))]

/-- Modelled from the spec: OpenApiGenerator::json_schema for a type
named t, with the external schema-derivation capability passed as env
(rocket-okapi/src/gen.rs is not among the sources).  The first request
records the produced definition in the registry; repeated requests
return the same referentially-consistent schema without duplicating the
definition. -/
def jsonSchema (env : Str → Json) (g : SchemaGen) (t : Str) : Json × SchemaGen :=
  match lookupA g.defs t with
  | some _ => (refSchema t, g)
  | none => (refSchema t, ⟨g.defs ++ [(t, env t)]⟩)

/-! ## Association-list lemmas -/

theorem lookupA_append_single {α : Type} (l : List (Str × α)) (k k2 : Str) (v : α) :
    lookupA (l ++ [(k, v)]) k2 =
      match lookupA l k2 with
      | some x => some x
      | none => if k = k2 then some v else none := by
  induction l with
  | nil => simp [lookupA]
  | cons e l ih =>
    by_cases he : e.1 = k2
    · simp [lookupA, he]
    · simpa [lookupA, he] using ih

theorem lookupA_updateA_self {α : Type} (l : List (Str × α)) (k : Str) (v : α)
    (ex : α) (h : lookupA l k = some ex) :
    lookupA (updateA l k v) k = some v := by
  induction l with
  | nil => simp [lookupA] at h
  | cons e l ih =>
    by_cases he : e.1 = k
    · simp [lookupA, updateA, he]
    · simp only [lookupA, if_neg he] at h
      simpa [lookupA, updateA, he] using ih h

theorem lookupA_updateA_ne {α : Type} (l : List (Str × α)) (k k2 : Str) (v : α)
    (h : ¬ k = k2) : lookupA (updateA l k v) k2 = lookupA l k2 := by
  induction l with
  | nil => rfl
  | cons e l ih =>
    by_cases he : e.1 = k
    · have h2 : ¬ e.1 = k2 := by rw [he]; exact h
      simpa [lookupA, updateA, he, h, h2] using ih
    · by_cases h2 : e.1 = k2
      · have h3 : ¬ k2 = k := fun hh => h hh.symm
        simp [lookupA, updateA, he, h2, h3]
      · simpa [lookupA, updateA, he, h2] using ih

theorem lookupA_append_ne {α : Type} (l : List (Str × α)) (k k2 : Str) (v : α)
    (h : ¬ k = k2) : lookupA (l ++ [(k, v)]) k2 = lookupA l k2 := by
  rw [lookupA_append_single]
  cases hl : lookupA l k2 with
  | some x => rfl
  | none => simp [h]

theorem countKey_append_single {α : Type} (l : List (Str × α)) (k : Str) (v : α) :
    countKey (l ++ [(k, v)]) k = countKey l k + 1 := by
  induction l with
  | nil => simp [countKey]
  | cons e l ih =>
    simp only [List.cons_append, countKey]
    rw [show l.append [(k, v)] = l ++ [(k, v)] from rfl, ih]
    omega

theorem lookupA_none_countKey {α : Type} (l : List (Str × α)) (k : Str)
    (h : lookupA l k = none) : countKey l k = 0 := by
  induction l with
  | nil => rfl
  | cons e l ih =>
    by_cases he : e.1 = k
    · simp [lookupA, he] at h
    · simp only [lookupA, if_neg he] at h
      simpa [countKey, he] using ih h

/-! ## Colon-flattening lemmas -/

theorem replaceSep_no_colon : ∀ s : Str, ':' ∉ s → replaceSep s = s
  | [], _ => rfl
  | [_], _ => rfl
  | c :: c2 :: rest, h => by
    have hc : ¬ c = ':' := fun hh => h (by simp [hh])
    simp only [replaceSep, if_neg (fun hand : c = ':' ∧ c2 = ':' => hc hand.1)]
    have := replaceSep_no_colon (c2 :: rest)
      (fun hm => h (List.mem_cons_of_mem _ hm))
    rw [this]

theorem dropWhileColon_no_colon (s : Str) (h : ':' ∉ s) :
    (s.dropWhile fun c => c = ':') = s := by
  cases s with
  | nil => rfl
  | cons c cs =>
    have hc : ¬ c = ':' := fun hh => h (by simp [hh])
    simp [List.dropWhile_cons, hc]

theorem normalizeOpId_no_colon (s : Str) (h : ':' ∉ s) : normalizeOpId s = s := by
  rw [normalizeOpId, dropWhileColon_no_colon s h, replaceSep_no_colon s h]

theorem joinSep_not_mem : ∀ (c : Char) (sep : Str) (l : List Str),
    c ∉ sep → (∀ s ∈ l, c ∉ s) → c ∉ joinSep sep l
  | _, _, [], _, _ => by simp [joinSep]
  | c, sep, [a], _, h => by simpa [joinSep] using h a (by simp)
  | c, sep, a :: b :: t, hsep, h => by
    simp only [joinSep]
    intro hm
    rcases List.mem_append.mp hm with h12 | hm3
    · rcases List.mem_append.mp h12 with ha | hs
      · exact h a (by simp) ha
      · exact hsep hs
    · exact joinSep_not_mem c sep (b :: t) hsep
        (fun s hs2 => h s (List.mem_cons_of_mem _ hs2)) hm3

theorem parameterFromSchema_required (schema : Json) (name : Str) (required : Bool) :
    (parameterFromSchema schema name required).required =
      (if nullableTrue schema then false else required) := by
  cases required <;> cases hn : nullableTrue schema <;>
    simp [parameterFromSchema, hn]

/-! ## Claim theorems -/

/-- C9: the none_if_empty helper maps the truly-empty string to None and
every non-empty string, including whitespace-only strings, to Some of it
unchanged. -/
theorem c9_none_if_empty :
    noneIfEmpty ([] : Str) = none ∧
    (∀ s : Str, ¬ s = [] → noneIfEmpty s = some s) ∧
    noneIfEmpty "   ".toList = some "   ".toList := by
  refine ⟨rfl, ?_, rfl⟩
  intro s h
  simp [noneIfEmpty, h]

/-- Witness for C9 at the concrete non-empty string x. -/
theorem c9_none_if_empty_witness :
    ¬ ("x".toList = ([] : Str)) ∧ noneIfEmpty "x".toList = some "x".toList :=
  ⟨by decide, c9_none_if_empty.2.1 "x".toList (by decide)⟩

/-- C10: when the generated schema has no non-empty properties map,
get_nested_form_parameters returns exactly one parameter, named by the
passed-in binding name and located in the query. -/
theorem c10_single_parameter :
    ∀ (schema : Json) (name : Str) (required : Bool),
    (propertiesOf schema).isEmpty = true →
    getNestedFormParameters schema name required =
      [parameterFromSchema schema name required] ∧
    (getNestedFormParameters schema name required).length = 1 ∧
    ∀ p, p ∈ getNestedFormParameters schema name required →
      p.name = name ∧ p.location = "query".toList := by
  intro schema name required h
  have he : getNestedFormParameters schema name required =
      [parameterFromSchema schema name required] := by
    simp [getNestedFormParameters, h]
  refine ⟨he, by rw [he]; rfl, ?_⟩
  intro p hp
  rw [he] at hp
  rcases List.mem_singleton.mp hp with rfl
  exact ⟨rfl, rfl⟩

/-- Witness for C10 at a schema with an empty object body. -/
theorem c10_single_parameter_witness :
    getNestedFormParameters (Json.obj []) "myform".toList true =
      [parameterFromSchema (Json.obj []) "myform".toList true] :=
  (c10_single_parameter (Json.obj []) "myform".toList true rfl).1

/-- C5: with a non-empty properties map, get_nested_form_parameters
yields one parameter per top-level property; each inherits the
struct-level required flag except that a property whose schema carries
nullable true is forced to required false. -/
theorem c5_nested_form_parameters :
    ∀ (schema : Json) (name : Str) (required : Bool),
    (propertiesOf schema).isEmpty = false →
    getNestedFormParameters schema name required =
      (propertiesOf schema).map
        (fun kv => parameterFromSchema (tryIntoSchema kv.2) kv.1 required) ∧
    (getNestedFormParameters schema name required).length =
      (propertiesOf schema).length ∧
    ∀ k v, (k, v) ∈ propertiesOf schema →
      ∃ p, p ∈ getNestedFormParameters schema name required ∧ p.name = k ∧
        p.location = "query".toList ∧
        p.required = (if nullableTrue (tryIntoSchema v) then false else required) := by
  intro schema name required h
  have he : getNestedFormParameters schema name required =
      (propertiesOf schema).map
        (fun kv => parameterFromSchema (tryIntoSchema kv.2) kv.1 required) := by
    simp [getNestedFormParameters, h]
  refine ⟨he, by rw [he, List.length_map], ?_⟩
  intro k v hm
  refine ⟨parameterFromSchema (tryIntoSchema v) k required, ?_, rfl, rfl, ?_⟩
  · rw [he]
    exact List.mem_map_of_mem _ hm
  · exact parameterFromSchema_required _ _ _

/-- The two-property example schema for the C5 witness: a non-nullable
id and a nullable name. -/
def c5SchemaExample : Json :=
  .obj [("properties".toList,
    .obj [("id".toList, .obj []),
          ("name".toList, .obj [("nullable".toList, .bool true)])])]

/-- Witness for C5 at the two-property example schema: the nullable
property yields a non-required parameter despite the struct-level
required flag. -/
theorem c5_nested_form_parameters_witness :
    ∃ p, p ∈ getNestedFormParameters c5SchemaExample "myform".toList true ∧
      p.name = "name".toList ∧ p.location = "query".toList ∧
      p.required = (if nullableTrue (tryIntoSchema
        (Json.obj [("nullable".toList, .bool true)])) then false else true) :=
  (c5_nested_form_parameters c5SchemaExample "myform".toList true rfl).2.2
    "name".toList (Json.obj [("nullable".toList, .bool true)])
    (List.mem_cons_of_mem _ (List.mem_singleton.mpr rfl))

/-- C8: requesting the schema of the same type twice on one generator
yields equal schemas, leaves the registry unchanged on the second call,
and registers the definition exactly once. -/
theorem c8_json_schema_idempotent :
    ∀ (env : Str → Json) (g : SchemaGen) (t : Str),
    (jsonSchema env g t).1 = (jsonSchema env (jsonSchema env g t).2 t).1 ∧
    (jsonSchema env (jsonSchema env g t).2 t).2.defs = (jsonSchema env g t).2.defs ∧
    (lookupA g.defs t = none → countKey (jsonSchema env g t).2.defs t = 1) := by
  intro env g t
  cases hl : lookupA g.defs t with
  | some s =>
    refine ⟨?_, ?_, ?_⟩
    · simp [jsonSchema, hl]
    · simp [jsonSchema, hl]
    · intro hn; simp [hl] at hn
  | none =>
    have h2 : lookupA (g.defs ++ [(t, env t)]) t = some (env t) := by
      rw [lookupA_append_single]
      simp [hl]
    refine ⟨?_, ?_, ?_⟩
    · simp [jsonSchema, hl, h2]
    · simp [jsonSchema, hl, h2]
    · intro _
      simp only [jsonSchema, hl]
      rw [countKey_append_single, lookupA_none_countKey g.defs t hl]

/-- Witness for C8 on an empty registry and the type name i32. -/
theorem c8_json_schema_idempotent_witness :
    lookupA (SchemaGen.mk []).defs "i32".toList = none ∧
    countKey ((jsonSchema (fun _ => Json.null) (SchemaGen.mk []) "i32".toList).2).defs
      "i32".toList = 1 :=
  ⟨rfl, (c8_json_schema_idempotent (fun _ => Json.null) ⟨[]⟩ "i32".toList).2.2 rfl⟩

/-- C3 counterexample: the repository's generator test stores an
explicitly supplied operation id with double-colon separators, and the
finalized document does not keep it unchanged; the id is flattened to
module_action. -/
theorem c3_explicit_id_counterexample :
    intoOpenapi (addOperation ⟨[]⟩ "/one".toList .get
        ⟨some "::module::action".toList⟩) =
      [("/one".toList, setOp {} .get ⟨some "module_action".toList⟩)] ∧
    ¬ ("module_action".toList = "::module::action".toList) :=
  ⟨rfl, by decide⟩

/-- C3 amended: the finalized document carries the separator-flattened
form of the chosen operation id (the explicit attribute value when
given, else the default handler-path id joined with underscores); an id
without colons, in particular the default id built from colon-free
identifier segments, is kept unchanged. -/
theorem c3_operation_id_flattening :
    ∀ (explicit : Option Str) (segs : List Str) (path : Str) (m : Method),
    intoOpenapi (addOperation ⟨[]⟩ path m
        ⟨some (chosenOperationId explicit segs)⟩) =
      [(path, setOp {} m ⟨some (normalizeOpId (chosenOperationId explicit segs))⟩)] ∧
    ((∀ s ∈ segs, ':' ∉ s) →
      normalizeOpId (chosenOperationId none segs) = operationIdOfPath segs) ∧
    (∀ e : Str, ':' ∉ e → normalizeOpId e = e) := by
  intro explicit segs path m
  refine ⟨rfl, ?_, fun e he => normalizeOpId_no_colon e he⟩
  intro hsegs
  have : ':' ∉ operationIdOfPath segs :=
    joinSep_not_mem ':' "_".toList segs (by decide) hsegs
  simpa [chosenOperationId] using normalizeOpId_no_colon _ this

/-- Witness for C3 at a colon-free default id. -/
theorem c3_operation_id_flattening_witness :
    normalizeOpId (chosenOperationId none ["crate".toList, "a".toList]) =
      operationIdOfPath ["crate".toList, "a".toList] :=
  (c3_operation_id_flattening none ["crate".toList, "a".toList] "/x".toList .get).2.1
    (by decide)

/-! ## Merge-engine lemmas and C2 -/

theorem mergeStep_lookup_ne (pfxPath : Str) (acc : List (Str × PathItem))
    (e : Str × PathItem) (k : Str) (h : ¬ rewriteKey pfxPath e.1 = k) :
    lookupA (mergeStep pfxPath acc e) k = lookupA acc k := by
  unfold mergeStep
  cases hl : lookupA acc (rewriteKey pfxPath e.1) with
  | some ex => exact lookupA_updateA_ne _ _ _ _ h
  | none => exact lookupA_append_ne _ _ _ _ h

theorem mergeStep_lookup_self (pfxPath : Str) (acc : List (Str × PathItem))
    (e : Str × PathItem) :
    lookupA (mergeStep pfxPath acc e) (rewriteKey pfxPath e.1) =
      some (match lookupA acc (rewriteKey pfxPath e.1) with
            | some ex => mergePathItem ex e.2
            | none => e.2) := by
  unfold mergeStep
  cases hl : lookupA acc (rewriteKey pfxPath e.1) with
  | some ex => exact lookupA_updateA_self _ _ _ _ hl
  | none =>
    rw [lookupA_append_single]
    simp [hl]

theorem mergePaths_lookup_untouched (pfxPath : Str) :
    ∀ (frag : List (Str × PathItem)) (base : List (Str × PathItem)) (k : Str),
    (∀ e ∈ frag, ¬ rewriteKey pfxPath e.1 = k) →
    lookupA (mergePaths base pfxPath frag) k = lookupA base k := by
  intro frag
  induction frag with
  | nil => intro base k _; rfl
  | cons e rest ih =>
    intro base k h
    have hstep : mergePaths base pfxPath (e :: rest) =
        mergePaths (mergeStep pfxPath base e) pfxPath rest := rfl
    rw [hstep, ih (mergeStep pfxPath base e) k
      (fun e2 he2 => h e2 (List.mem_cons_of_mem _ he2))]
    exact mergeStep_lookup_ne pfxPath base e k (h e (List.mem_cons_self _ _))

theorem mergePaths_lookup_entry (pfxPath : Str) :
    ∀ (frag : List (Str × PathItem)) (base : List (Str × PathItem)) (k : Str)
      (pi : PathItem),
    ((frag.map fun e => rewriteKey pfxPath e.1).Nodup) →
    (k, pi) ∈ frag →
    lookupA (mergePaths base pfxPath frag) (rewriteKey pfxPath k) =
      some (match lookupA base (rewriteKey pfxPath k) with
            | some ex => mergePathItem ex pi
            | none => pi) := by
  intro frag
  induction frag with
  | nil => intro base k pi _ hm; exact absurd hm (List.not_mem_nil _)
  | cons e rest ih =>
    intro base k pi hnd hm
    rw [List.map_cons, List.nodup_cons] at hnd
    rcases List.mem_cons.mp hm with hme | hm
    · rcases hme with rfl
      have hstep : mergePaths base pfxPath ((k, pi) :: rest) =
          mergePaths (mergeStep pfxPath base (k, pi)) pfxPath rest := rfl
      rw [hstep]
      rw [mergePaths_lookup_untouched pfxPath rest (mergeStep pfxPath base (k, pi))
        (rewriteKey pfxPath k)
        (fun e2 he2 hk => hnd.1 (hk ▸ List.mem_map_of_mem _ he2))]
      exact mergeStep_lookup_self pfxPath base (k, pi)
    · have hstep : mergePaths base pfxPath (e :: rest) =
          mergePaths (mergeStep pfxPath base e) pfxPath rest := rfl
      have hne : ¬ rewriteKey pfxPath e.1 = rewriteKey pfxPath k := by
        intro hk
        exact hnd.1 (hk ▸ List.mem_map_of_mem (fun x => rewriteKey pfxPath x.1)
          (show (k, pi) ∈ rest from hm))
      rw [hstep, ih (mergeStep pfxPath base e) k pi hnd.2 hm,
        mergeStep_lookup_ne pfxPath base e _ hne]

/-- C2: merge_paths rewrites every fragment key by prepending the path
prefix; a rewritten key already present in the base is merged at method
granularity with the base operation kept per method, a new rewritten key
inserts the whole path item, and keys not rewritten to are untouched;
merging a base get entry at /base/x with a fragment post entry at /x
under prefix /base/ yields one /base/x entry carrying both methods. -/
theorem c2_merge_paths :
    (∀ (base frag : List (Str × PathItem)) (pfxPath k : Str) (pi : PathItem),
      ((frag.map fun e => rewriteKey pfxPath e.1).Nodup) →
      (k, pi) ∈ frag →
      lookupA (mergePaths base pfxPath frag) (rewriteKey pfxPath k) =
        some (match lookupA base (rewriteKey pfxPath k) with
              | some ex => mergePathItem ex pi
              | none => pi)) ∧
    (∀ (base frag : List (Str × PathItem)) (pfxPath k : Str),
      (∀ e ∈ frag, ¬ rewriteKey pfxPath e.1 = k) →
      lookupA (mergePaths base pfxPath frag) k = lookupA base k) ∧
    (∀ (ex pi : PathItem) (m : Method),
      getOp (mergePathItem ex pi) m = mergeOption (getOp ex m) (getOp pi m)) ∧
    mergePaths [("/base/x".toList, { get := some ⟨some "g".toList⟩ })]
        "/base/".toList [("/x".toList, { post := some ⟨some "p".toList⟩ })] =
      [("/base/x".toList,
        { get := some ⟨some "g".toList⟩, post := some ⟨some "p".toList⟩ })] := by
  refine ⟨?_, ?_, ?_, rfl⟩
  · intro base frag pfxPath k pi hnd hm
    exact mergePaths_lookup_entry pfxPath frag base k pi hnd hm
  · intro base frag pfxPath k h
    exact mergePaths_lookup_untouched pfxPath frag base k h
  · intro ex pi m
    cases m <;> rfl

/-! ## Placeholder-shape lemmas and C7 -/

theorem singleton_isSuffixOf_iff (a : Char) (s : Str) :
    List.isSuffixOf [a] s = true ↔ s.getLast? = some a := by
  cases hs : s.reverse with
  | nil =>
    have : s = [] := List.reverse_eq_nil_iff.mp hs
    subst this
    simp [List.isSuffixOf]
  | cons b t =>
    have hh : s.getLast? = some b := by rw [← List.head?_reverse, hs]; rfl
    constructor
    · intro h
      simp only [List.isSuffixOf, List.reverse_singleton, hs] at h
      have : a = b := by
        simpa [List.isPrefixOf] using h
      rw [hh, this]
    · intro h
      rw [hh] at h
      injection h with hba
      simp [List.isSuffixOf, List.reverse_singleton, hs, List.isPrefixOf, hba]

theorem placeholderSingle_some {s p : Str} (h : placeholderSingle s = some p) :
    s = '<' :: (p ++ ['>']) ∧ List.isSuffixOf "..>".toList s = false := by
  unfold placeholderSingle at h
  split at h
  case isFalse => exact absurd h (by simp)
  case isTrue hc =>
    obtain ⟨h1, h2, h3⟩ := hc
    injection h with hp
    cases s with
    | nil => simp at h1
    | cons c t =>
      simp only [List.head?_cons, Option.some.injEq] at h1
      subst h1
      have ht : ¬ t = [] := by
        intro h0
        subst h0
        exact absurd ((singleton_isSuffixOf_iff '>' ['<']).mp h2) (by decide)
      have hlast : t.getLast? = some '>' := by
        have hl := (singleton_isSuffixOf_iff '>' ('<' :: t)).mp h2
        cases t with
        | nil => exact absurd rfl ht
        | cons c2 t2 => rwa [List.getLast?_cons_cons] at hl
      cases htr : t.reverse with
      | nil => exact absurd (List.reverse_eq_nil_iff.mp htr) ht
      | cons x xs =>
        have hx : x = '>' := by
          have h2x : (x :: xs).head? = some '>' := by
            rw [← htr, List.head?_reverse]
            exact hlast
          simpa using h2x
        have hts : t = xs.reverse ++ ['>'] := by
          have hrr : t.reverse.reverse = (x :: xs).reverse := by rw [htr]
          rw [List.reverse_reverse] at hrr
          rw [hrr, List.reverse_cons, hx]
        have h3b : List.isSuffixOf "..>".toList ('<' :: t) = false := by
          cases hb : List.isSuffixOf "..>".toList ('<' :: t)
          · rfl
          · exact absurd hb h3
        refine ⟨?_, h3b⟩
        rw [← hp, hts]
        simp [List.dropLast_concat]

theorem mem_pathParams {r : Route} {p : Str} (h : p ∈ pathParams r) :
    ∃ seg, seg ∈ pathSegments r.origin ∧ seg = '<' :: (p ++ ['>']) ∧
      List.isSuffixOf "..>".toList seg = false := by
  obtain ⟨seg, hseg, hps⟩ := List.mem_filterMap.mp h
  obtain ⟨he, hnm⟩ := placeholderSingle_some hps
  exact ⟨seg, hseg, he, hnm⟩

theorem mem_queryParams {r : Route} {p : Str} (h : p ∈ queryParams r) :
    ∃ tok, tok ∈ queryTokens r ∧ tok = '<' :: (p ++ ['>']) ∧
      List.isSuffixOf "..>".toList tok = false := by
  obtain ⟨tok, htok, hps⟩ := List.mem_filterMap.mp h
  obtain ⟨he, hnm⟩ := placeholderSingle_some hps
  exact ⟨tok, htok, he, hnm⟩

/-- The route the fallback parser produces for the attribute
get("/user/<id>?<q>"). -/
def c7Route : Route :=
  ⟨.get, ⟨"/user/<id>".toList, some "<q>".toList⟩, none, none⟩

/-- C7: the fallback parser applied to get("/user/<id>?<q>") yields a
GET route whose path_params are exactly id and whose query_params are
exactly q; and in general path_params and query_params yield only names
of single-value placeholder tokens, never of multi-segment
dot-dot placeholders. -/
theorem c7_fallback_example :
    parseAttrFromAttr "get".toList "\"/user/<id>?<q>\"".toList = .ok c7Route ∧
    c7Route.method = .get ∧
    pathParams c7Route = ["id".toList] ∧
    queryParams c7Route = ["q".toList] ∧
    (∀ (r : Route) (p : Str), p ∈ pathParams r →
      ∃ seg, seg ∈ pathSegments r.origin ∧ seg = '<' :: (p ++ ['>']) ∧
        List.isSuffixOf "..>".toList seg = false) ∧
    (∀ (r : Route) (p : Str), p ∈ queryParams r →
      ∃ tok, tok ∈ queryTokens r ∧ tok = '<' :: (p ++ ['>']) ∧
        List.isSuffixOf "..>".toList tok = false) := by
  refine ⟨rfl, rfl, rfl, rfl, ?_, ?_⟩
  · intro r p h
    exact mem_pathParams h
  · intro r p h
    exact mem_queryParams h

/-- Witness for C7: the general placeholder-shape statement applied to
the example route and its extracted path parameter id. -/
theorem c7_fallback_example_witness :
    ∃ seg, seg ∈ pathSegments c7Route.origin ∧
      seg = '<' :: ("id".toList ++ ['>']) ∧
      List.isSuffixOf "..>".toList seg = false :=
  c7_fallback_example.2.2.2.2.1 c7Route "id".toList (by decide)

/-! ## Line-splitting lemmas and C6 -/

theorem splitOnChar_ne_nil (c : Char) : ∀ s : Str, ¬ splitOnChar c s = []
  | [] => by simp [splitOnChar]
  | x :: xs => by
    by_cases hx : x = c
    · simp [splitOnChar, hx]
    · simp only [splitOnChar, if_neg hx]
      cases hsx : splitOnChar c xs with
      | nil => simp
      | cons h t => simp

theorem splitOnChar_headD (c : Char) :
    ∀ s : Str, (splitOnChar c s).headD [] = s.takeWhile fun x => ¬ x = c
  | [] => rfl
  | x :: xs => by
    by_cases hx : x = c
    · simp [splitOnChar, hx, List.takeWhile_cons]
    · simp only [splitOnChar, if_neg hx]
      cases hsx : splitOnChar c xs with
      | nil => exact absurd hsx (splitOnChar_ne_nil c xs)
      | cons h t =>
        have ih := splitOnChar_headD c xs
        rw [hsx] at ih
        simp only [List.headD_cons] at ih
        simp [List.takeWhile_cons, hx, ih]

theorem joinSep_splitOnChar (c : Char) :
    ∀ s : Str, joinSep [c] (splitOnChar c s) = s
  | [] => rfl
  | x :: xs => by
    by_cases hx : x = c
    · simp only [splitOnChar, if_pos hx]
      cases hsx : splitOnChar c xs with
      | nil => exact absurd hsx (splitOnChar_ne_nil c xs)
      | cons h t =>
        have ih := joinSep_splitOnChar c xs
        rw [hsx] at ih
        simp only [joinSep]
        rw [show ([] : Str) ++ [c] ++ joinSep [c] (h :: t) =
          c :: joinSep [c] (h :: t) from rfl, ih, hx]
    · simp only [splitOnChar, if_neg hx]
      cases hsx : splitOnChar c xs with
      | nil => exact absurd hsx (splitOnChar_ne_nil c xs)
      | cons h t =>
        have ih := joinSep_splitOnChar c xs
        rw [hsx] at ih
        cases t with
        | nil =>
          simp only [joinSep] at ih ⊢
          rw [ih]
        | cons t1 t2 =>
          simp only [joinSep] at ih ⊢
          rw [show (x :: h) ++ [c] ++ joinSep [c] (t1 :: t2) =
            x :: (h ++ [c] ++ joinSep [c] (t1 :: t2)) from rfl, ih]

theorem splitOnChar_tail_spec (c : Char) :
    ∀ s : Str,
    (s.dropWhile (fun x => ¬ x = c) = [] → (splitOnChar c s).tail = []) ∧
    (∀ d restD, s.dropWhile (fun x => ¬ x = c) = d :: restD →
      ¬ (splitOnChar c s).tail = [] ∧
      joinSep [c] ((splitOnChar c s).tail) = restD)
  | [] => by
    refine ⟨fun _ => rfl, fun d restD h => ?_⟩
    simp [List.dropWhile] at h
  | x :: xs => by
    by_cases hx : x = c
    · have hdw : (x :: xs).dropWhile (fun x => ¬ x = c) = x :: xs := by
        simp [List.dropWhile_cons, hx]
      refine ⟨fun h0 => ?_, fun d restD h => ?_⟩
      · rw [hdw] at h0; exact absurd h0 (by simp)
      · rw [hdw] at h
        injection h with hd hrest
        simp only [splitOnChar, if_pos hx, List.tail_cons]
        exact ⟨splitOnChar_ne_nil c xs, by rw [joinSep_splitOnChar c xs, hrest]⟩
    · have hdw : (x :: xs).dropWhile (fun x => ¬ x = c) =
          xs.dropWhile (fun x => ¬ x = c) := by
        simp [List.dropWhile_cons, hx]
      have ih := splitOnChar_tail_spec c xs
      have htl : (splitOnChar c (x :: xs)).tail = (splitOnChar c xs).tail := by
        simp only [splitOnChar, if_neg hx]
        cases hsx : splitOnChar c xs with
        | nil => exact absurd hsx (splitOnChar_ne_nil c xs)
        | cons h t => simp
      refine ⟨fun h0 => ?_, fun d restD h => ?_⟩
      · rw [htl]; exact ih.1 (by rw [← hdw]; exact h0)
      · rw [htl]
        exact ih.2 d restD (by rw [← hdw]; exact h)

theorem filterMap_noneIfEmpty (g : Str → Str) :
    ∀ l : List Str,
    (l.filterMap fun x => noneIfEmpty (g x)) = (l.map g).filter fun p => ¬ p = []
  | [] => rfl
  | a :: l => by
    have ih := filterMap_noneIfEmpty g l
    simp only [noneIfEmpty] at ih
    by_cases h : g a = []
    · simp [noneIfEmpty, h, ih]
    · simp [noneIfEmpty, h, ih]

theorem mergeDescriptionLines_eq_spec (d : Str) :
    mergeDescriptionLines d = noneIfEmpty (specParagraphMerge d) := by
  unfold mergeDescriptionLines specParagraphMerge
  rw [filterMap_noneIfEmpty]

/-- C6: on every doc text, when the normalized text begins with a hash
the extractor returns the first line minus leading hashes and
surrounding whitespace as the title and the paragraph-merged remainder
after the first newline as the description, and otherwise no title and
the paragraph merge of the whole text, where the reference reading
(specTitle, specAfterFirstNl, specParagraphMerge) is written from the
specification's words over the line decomposition; in particular the
example doc comment parses to title Title and description
Some description. -/
theorem c6_doc_extractor :
    (∀ (docs : List Str) (doc : Str), getDoc docs = some doc →
      (doc.head? = some '#' →
        getTitleAndDescFromDoc docs =
          (noneIfEmpty (specTitle doc),
           (specAfterFirstNl doc).bind fun restD =>
             noneIfEmpty (specParagraphMerge restD))) ∧
      (¬ doc.head? = some '#' →
        getTitleAndDescFromDoc docs = (none, noneIfEmpty (specParagraphMerge doc)))) ∧
    getTitleAndDescFromDoc ["# Title\n\nSome description".toList] =
      (some "Title".toList, some "Some description".toList) := by
  constructor
  · intro docs doc hdoc
    have hw : getTitleAndDescFromDoc docs = titleDescCore doc := by
      simp [getTitleAndDescFromDoc, hdoc]
    constructor
    · intro hh
      rw [hw]
      unfold titleDescCore
      rw [if_pos hh]
      have htitle :
          trim ((doc.takeWhile fun c => ¬ c = nl).dropWhile fun c => c = '#') =
            specTitle doc := by
        unfold specTitle specFirstLine
        rw [splitOnChar_headD nl doc]
      rw [htitle]
      cases hdw : doc.dropWhile (fun x => ¬ x = nl) with
      | nil =>
        have htl := (splitOnChar_tail_spec nl doc).1 hdw
        have hafter : specAfterFirstNl doc = none := by
          unfold specAfterFirstNl
          cases hsp : splitOnChar nl doc with
          | nil => exact absurd hsp (splitOnChar_ne_nil nl doc)
          | cons s0 tl =>
            rw [hsp] at htl
            simp only [List.tail_cons] at htl
            subst htl
            rfl
        rw [hafter]
        rfl
      | cons d0 restD =>
        have htl := (splitOnChar_tail_spec nl doc).2 d0 restD hdw
        have hafter : specAfterFirstNl doc = some restD := by
          unfold specAfterFirstNl
          cases hsp : splitOnChar nl doc with
          | nil => exact absurd hsp (splitOnChar_ne_nil nl doc)
          | cons s0 tl =>
            rw [hsp] at htl
            simp only [List.tail_cons] at htl
            cases tl with
            | nil => exact absurd rfl htl.1
            | cons t1 t2 => rw [← htl.2]
        rw [hafter]
        show (noneIfEmpty (specTitle doc), mergeDescriptionLines restD) =
          (noneIfEmpty (specTitle doc), (some restD).bind fun restD =>
            noneIfEmpty (specParagraphMerge restD))
        rw [mergeDescriptionLines_eq_spec]
        rfl
    · intro hh
      rw [hw]
      unfold titleDescCore
      rw [if_neg hh, mergeDescriptionLines_eq_spec]
  · rfl

/-- Witness for C6: the general rule applied to the concrete example
doc comment, whose normalized text begins with a hash. -/
theorem c6_doc_extractor_witness :
    getTitleAndDescFromDoc ["# Title\n\nSome description".toList] =
      (noneIfEmpty (specTitle "# Title\n\nSome description".toList),
       (specAfterFirstNl "# Title\n\nSome description".toList).bind fun restD =>
         noneIfEmpty (specParagraphMerge restD)) :=
  (c6_doc_extractor.1 ["# Title\n\nSome description".toList]
    "# Title\n\nSome description".toList rfl).1 rfl

/-! ## Fallback-parser scanning lemmas and C4 -/

theorem quoted_fmt_none (part : Str) (h : isQuoted part = true) :
    dropPfx fmtEqStr part = none := by
  cases part with
  | nil => simp [isQuoted] at h
  | cons c t =>
    simp only [isQuoted, List.head?_cons, Bool.and_eq_true, decide_eq_true_eq,
      Option.some.injEq] at h
    obtain ⟨h1, _⟩ := h
    subst h1
    have hfq : ¬ ('f' = qc) := by decide
    simp [fmtEqStr, dropPfx, hfq]

theorem scanParts_isOk_false_iff :
    ∀ (parts : List Str) (p m d : Option Str),
    isOkE (scanParts parts p m d) = false ↔ parts.any isFmtBad = true
  | [], p, m, d => by simp [scanParts, isOkE]
  | part :: rest, p, m, d => by
    simp only [scanParts]
    split
    next hq =>
      have hfmt : dropPfx fmtEqStr part = none := quoted_fmt_none part hq.1
      rw [scanParts_isOk_false_iff rest (some (trimMatchesQ part)) m d]
      simp [List.any_cons, isFmtBad, hfmt]
    next hq =>
      split
      next rv hf =>
        split
        next mt hm =>
          rw [scanParts_isOk_false_iff rest p (some mt) d]
          simp [List.any_cons, isFmtBad, hf, hm]
        next hm =>
          simp [List.any_cons, isFmtBad, hf, hm, isOkE]
      next hf =>
        split
        next rv hd =>
          rw [scanParts_isOk_false_iff rest p m (some (trimMatchesQA (trim rv)))]
          simp [List.any_cons, isFmtBad, hf]
        next hd =>
          rw [scanParts_isOk_false_iff rest p m d]
          simp [List.any_cons, isFmtBad, hf]

theorem scanParts_path_stays :
    ∀ (parts : List Str) (x : Str) (m d : Option Str)
      (r : Option Str × Option Str × Option Str),
    scanParts parts (some x) m d = .ok r → r.1 = some x
  | [], x, m, d, r => by
    intro h
    cases h
    rfl
  | part :: rest, x, m, d, r => by
    simp only [scanParts]
    split
    next hq => exact absurd hq.2 (by simp)
    next hq =>
      split
      next rv hf =>
        split
        next mt hm => exact scanParts_path_stays rest x (some mt) d r
        next hm => intro h; exact absurd h (by simp)
      next hf =>
        split
        next rv hd => exact scanParts_path_stays rest x m _ r
        next hd => exact scanParts_path_stays rest x m d r

theorem scanParts_path_none :
    ∀ (parts : List Str) (m d : Option Str)
      (r : Option Str × Option Str × Option Str),
    scanParts parts none m d = .ok r →
    r.1 = (firstQuoted parts).map trimMatchesQ
  | [], m, d, r => by
    intro h
    cases h
    rfl
  | part :: rest, m, d, r => by
    simp only [scanParts]
    split
    next hq =>
      intro h
      rw [scanParts_path_stays rest (trimMatchesQ part) m d r h]
      rw [firstQuoted, List.find?_cons_of_pos _ hq.1]
      rfl
    next hq =>
      have hq1 : ¬ isQuoted part = true := fun hh => hq ⟨hh, by simp⟩
      have hfq : firstQuoted (part :: rest) = firstQuoted rest := by
        rw [firstQuoted, firstQuoted, List.find?_cons_of_neg _ hq1]
      rw [hfq]
      split
      next rv hf =>
        split
        next mt hm => exact scanParts_path_none rest (some mt) d r
        next hm => intro h; exact absurd h (by simp)
      next hf =>
        split
        next rv hd => exact scanParts_path_none rest m _ r
        next hd => exact scanParts_path_none rest m d r

theorem resolvePath_isOk_false_iff (m : Method) (media? data? : Option Str)
    (parts : List Str) :
    isOkE (resolvePath m ((firstQuoted parts).map trimMatchesQ) media? data?) = false ↔
      ((∃ q, firstQuoted parts = some q ∧ parseRoute (trimMatchesQ q) = none) ∨
       firstQuoted parts = none) := by
  cases hfq : firstQuoted parts with
  | none =>
    simp only [hfq, Option.map_none', resolvePath, isOkE]
    exact ⟨fun _ => Or.inr trivial, fun _ => trivial⟩
  | some q =>
    cases hr : parseRoute (trimMatchesQ q) with
    | none =>
      simp only [hfq, Option.map_some', resolvePath, hr, isOkE]
      exact ⟨fun _ => Or.inl ⟨q, rfl, hr⟩, fun _ => trivial⟩
    | some o =>
      simp only [hfq, Option.map_some', resolvePath, hr, isOkE]
      constructor
      · intro hfalse
        exact absurd hfalse (by simp)
      · intro hbd
        rcases hbd with ⟨q1, hq1, hq1r⟩ | hD
        · injection hq1 with hq1e
          rw [← hq1e, hr] at hq1r
          exact absurd hq1r (by simp)
        · exact absurd hD (by simp)

theorem resolveMethodPath_isOk_false_iff (name : Str) (media? data? : Option Str)
    (parts : List Str) :
    isOkE (resolveMethodPath name ((firstQuoted parts).map trimMatchesQ)
        media? data?) = false ↔
      (methodOfName name = none ∨
       (∃ q, firstQuoted parts = some q ∧ parseRoute (trimMatchesQ q) = none) ∨
       firstQuoted parts = none) := by
  cases hdp : dropPfx pfxProtect name with
  | some restName =>
    have hmn : methodOfName name = methodFromStr restName := by
      rw [methodOfName, hdp]
    cases hmf : methodFromStr restName with
    | none =>
      simp only [resolveMethodPath, hdp, hmf, isOkE]
      exact ⟨fun _ => Or.inl (hmn.trans hmf), fun _ => trivial⟩
    | some mth =>
      simp only [resolveMethodPath, hdp, hmf]
      rw [resolvePath_isOk_false_iff mth media? data? parts]
      constructor
      · intro hbd
        exact Or.inr hbd
      · intro habcd
        rcases habcd with hA | hbd
        · rw [hmn, hmf] at hA
          exact absurd hA (by simp)
        · exact hbd
  | none =>
    have hmn : methodOfName name = methodFromStr name := by
      rw [methodOfName, hdp]
    by_cases hroute : name = "route".toList
    · have hA : methodOfName name = none := by
        rw [hmn, hroute]
        rfl
      simp only [resolveMethodPath, hdp, if_pos hroute, isOkE]
      exact ⟨fun _ => Or.inl hA, fun _ => trivial⟩
    · cases hmf : methodFromStr name with
      | none =>
        simp only [resolveMethodPath, hdp, if_neg hroute, hmf, isOkE]
        exact ⟨fun _ => Or.inl (hmn.trans hmf), fun _ => trivial⟩
      | some mth =>
        simp only [resolveMethodPath, hdp, if_neg hroute, hmf]
        rw [resolvePath_isOk_false_iff mth media? data? parts]
        constructor
        · intro hbd
          exact Or.inr hbd
        · intro habcd
          rcases habcd with hA | hbd
          · rw [hmn, hmf] at hA
            exact absurd hA (by simp)
          · exact hbd

/-- C4: the fallback parser produces a Route, and it fails exactly when
(a) the attribute name yields no recognizable HTTP method (in
particular, the route attribute name resolves to none), (b) the first
quoted positional argument is not a valid path template, (c) a format
argument names an unknown media type, or (d) no quoted positional
argument is present; parse_attrs runs exactly this parser on the first
recognized route attribute, so malformed input is always reported as an
error, never defaulted. -/
theorem c4_error_exactness :
    ∀ (name argsStr : Str),
    (isRouteAttribute name = true →
      parseAttrs [(name, argsStr)] = parseAttrFromAttr name argsStr) ∧
    (isOkE (parseAttrFromAttr name argsStr) = false ↔
      (methodOfName name = none ∨
       (∃ q, firstQuoted (splitParts argsStr) = some q ∧
         parseRoute (trimMatchesQ q) = none) ∨
       (splitParts argsStr).any isFmtBad = true ∨
       firstQuoted (splitParts argsStr) = none)) := by
  intro name argsStr
  constructor
  · intro h
    simp [parseAttrs, List.find?, h]
  · cases hscan : scanParts (splitParts argsStr) none none none with
    | error e =>
      have hC : (splitParts argsStr).any isFmtBad = true := by
        rw [← scanParts_isOk_false_iff (splitParts argsStr) none none none, hscan]
        rfl
      have hL : isOkE (parseAttrFromAttr name argsStr) = false := by
        unfold parseAttrFromAttr
        rw [hscan]
        rfl
      simp only [hL]
      exact ⟨fun _ => Or.inr (Or.inr (Or.inl hC)), fun _ => trivial⟩
    | ok triple =>
      obtain ⟨p?, m?, d?⟩ := triple
      have hC : ¬ (splitParts argsStr).any isFmtBad = true := by
        intro hc
        have hx := (scanParts_isOk_false_iff (splitParts argsStr) none none none).mpr hc
        rw [hscan] at hx
        simp [isOkE] at hx
      have hpath : p? = (firstQuoted (splitParts argsStr)).map trimMatchesQ :=
        scanParts_path_none (splitParts argsStr) none none ⟨p?, m?, d?⟩ hscan
      have hunf : parseAttrFromAttr name argsStr =
          resolveMethodPath name ((firstQuoted (splitParts argsStr)).map trimMatchesQ)
            m? d? := by
        unfold parseAttrFromAttr
        rw [hscan, ← hpath]
      rw [hunf, resolveMethodPath_isOk_false_iff name m? d? (splitParts argsStr)]
      constructor
      · intro habd
        rcases habd with hA | hB | hD
        · exact Or.inl hA
        · exact Or.inr (Or.inl hB)
        · exact Or.inr (Or.inr (Or.inr hD))
      · intro habcd
        rcases habcd with hA | hB | hCc | hD
        · exact Or.inl hA
        · exact Or.inr (Or.inl hB)
        · exact absurd hCc hC
        · exact Or.inr (Or.inr hD)

/-! ## Rendered-argument lemmas and C1 -/

theorem dropWhile_head_false (pr : Char → Bool) :
    ∀ s : Str, (∀ c, s.head? = some c → pr c = false) → s.dropWhile pr = s
  | [], _ => rfl
  | c :: t, h => by simp [List.dropWhile_cons, h c rfl]

theorem dropEndWhile_last_false (pr : Char → Bool) (s : Str)
    (h : ∀ c, s.getLast? = some c → pr c = false) : dropEndWhile pr s = s := by
  unfold dropEndWhile
  rw [dropWhile_head_false pr s.reverse
    (fun c hc => h c (by rwa [List.head?_reverse] at hc)), List.reverse_reverse]

theorem getLast?_quoted (v : Str) : (qc :: (v ++ [qc])).getLast? = some qc := by
  rw [show qc :: (v ++ [qc]) = (qc :: v) ++ [qc] from rfl, List.getLast?_concat]

theorem mem_of_getLast?_eq (l : Str) (c : Char) (h : l.getLast? = some c) :
    c ∈ l := by
  rw [← List.head?_reverse] at h
  cases hr : l.reverse with
  | nil => rw [hr] at h; simp at h
  | cons b t =>
    rw [hr] at h
    injection h with hbc
    have hb : b ∈ l.reverse := by rw [hr]; exact List.mem_cons_self _ _
    rw [List.mem_reverse] at hb
    rw [← hbc]
    exact hb

theorem dropWhile_reverse_tail (pr : Char → Bool) (l : Str)
    (h : ∀ c ∈ l, pr c = false) : (l.reverse.dropWhile pr).reverse = l := by
  rw [dropWhile_head_false pr l.reverse (fun c hc => by
    rw [List.head?_reverse] at hc
    exact h c (mem_of_getLast?_eq l c hc)), List.reverse_reverse]

theorem trimMatchesQ_quoted (p : Str) (hp : ¬ p = []) (hq : ¬ qc ∈ p) :
    trimMatchesQ (qc :: (p ++ [qc])) = p := by
  cases hpc : p with
  | nil => exact absurd hpc hp
  | cons p0 pt =>
    have hq2 : ¬ qc ∈ p0 :: pt := hpc ▸ hq
    have hp0 : ¬ (p0 = qc) := fun h0 => hq2 (h0 ▸ List.mem_cons_self _ _)
    unfold trimMatchesQ
    rw [show ((qc :: (p0 :: pt ++ [qc])).dropWhile fun c => c = qc) =
        p0 :: pt ++ [qc] from by simp [List.dropWhile_cons, hp0]]
    unfold dropEndWhile
    rw [show (p0 :: pt ++ [qc]).reverse = qc :: (p0 :: pt).reverse from by simp]
    rw [show ((qc :: (p0 :: pt).reverse).dropWhile fun c => c = qc) =
        ((p0 :: pt).reverse.dropWhile fun c => c = qc) from by
      simp [List.dropWhile_cons]]
    exact dropWhile_reverse_tail _ (p0 :: pt) (fun c hc => by
      simp only [decide_eq_false_iff_not]
      exact fun h0 => hq2 (h0 ▸ hc))

theorem trimMatchesQA_quoted (v : Str) (hq : ¬ qc ∈ v) (ha : ¬ apos ∈ v) :
    trimMatchesQA (qc :: (v ++ [qc])) = v := by
  have hqa : (qc = qc || qc = apos) = true := by decide
  cases hvc : v with
  | nil => simp [trimMatchesQA, List.dropWhile_cons, hqa, dropEndWhile]
  | cons v0 vt =>
    have hq2 : ¬ qc ∈ v0 :: vt := hvc ▸ hq
    have ha2 : ¬ apos ∈ v0 :: vt := hvc ▸ ha
    have hv0 : (v0 = qc || v0 = apos) = false := by
      simp only [Bool.or_eq_false_iff, decide_eq_false_iff_not]
      exact ⟨fun h0 => hq2 (h0 ▸ List.mem_cons_self _ _),
             fun h0 => ha2 (h0 ▸ List.mem_cons_self _ _)⟩
    unfold trimMatchesQA
    rw [show ((qc :: (v0 :: vt ++ [qc])).dropWhile fun c => c = qc || c = apos) =
        v0 :: vt ++ [qc] from by
      simp only [List.dropWhile_cons, hqa, if_pos, List.cons_append]
      simp [hv0]]
    unfold dropEndWhile
    rw [show (v0 :: vt ++ [qc]).reverse = qc :: (v0 :: vt).reverse from by simp]
    rw [show ((qc :: (v0 :: vt).reverse).dropWhile fun c => c = qc || c = apos) =
        ((v0 :: vt).reverse.dropWhile fun c => c = qc || c = apos) from by
      simp [List.dropWhile_cons, hqa]]
    exact dropWhile_reverse_tail _ (v0 :: vt) (fun c hc => by
      simp only [Bool.or_eq_false_iff, decide_eq_false_iff_not]
      exact ⟨fun h0 => hq2 (h0 ▸ hc), fun h0 => ha2 (h0 ▸ hc)⟩)


theorem trim_space_quoted (v : Str) :
    trim (' ' :: (qc :: (v ++ [qc]))) = qc :: (v ++ [qc]) := by
  unfold trim
  rw [show ((' ' :: (qc :: (v ++ [qc]))).dropWhile isWS) =
      ((qc :: (v ++ [qc])).dropWhile isWS) from by
    simp [List.dropWhile_cons, isWS]]
  rw [dropWhile_head_false isWS _ (fun c hc => by
    simp only [List.head?_cons, Option.some.injEq] at hc
    rw [← hc]
    decide)]
  exact dropEndWhile_last_false isWS _ (fun c hc => by
    rw [getLast?_quoted] at hc
    injection hc with hcc
    rw [← hcc]
    decide)

/-- The key of a named attribute argument. -/
def argKey (a : Arg) : Option Str :=
  match a with
  | .named k _ => some k
  | .pos _ => none

theorem findNamed_cons_named (k k2 v : Str) (args : List Arg) :
    findNamed k (Arg.named k2 v :: args) =
      if k2 = k then v :: findNamed k args else findNamed k args := by
  by_cases h : k2 = k <;> simp [findNamed, List.filterMap_cons, h]

theorem findNamed_nil_of_not_mem (k : Str) : ∀ args : List Arg,
    k ∉ args.filterMap argKey → findNamed k args = []
  | [], _ => rfl
  | .pos s :: rest, h => by
    have h2 : k ∉ rest.filterMap argKey := by
      simpa [argKey, List.filterMap_cons] using h
    simpa [findNamed, List.filterMap_cons] using
      findNamed_nil_of_not_mem k rest h2
  | .named k2 v :: rest, h => by
    simp only [argKey, List.filterMap_cons, List.mem_cons] at h
    push_neg at h
    have hne : ¬ k2 = k := fun he => h.1 he.symm
    rw [findNamed_cons_named, if_neg hne]
    exact findNamed_nil_of_not_mem k rest h.2

theorem findNamed_len_le_one : ∀ (args : List Arg) (k : Str),
    (args.filterMap argKey).Nodup → (findNamed k args).length ≤ 1
  | [], k, _ => by simp [findNamed]
  | .pos s :: rest, k, h => by
    have h2 : (rest.filterMap argKey).Nodup := by
      simpa [argKey, List.filterMap_cons] using h
    simpa [findNamed, List.filterMap_cons] using
      findNamed_len_le_one rest k h2
  | .named k2 v :: rest, k, h => by
    simp only [argKey, List.filterMap_cons, List.nodup_cons] at h
    rw [findNamed_cons_named]
    by_cases hk : k2 = k
    · rw [if_pos hk]
      have hnil : findNamed k rest = [] :=
        findNamed_nil_of_not_mem _ rest (hk ▸ h.1)
      simp [hnil]
    · rw [if_neg hk]
      exact findNamed_len_le_one rest k h.2

theorem mem_findNamed : ∀ (args : List Arg) (k v : Str),
    v ∈ findNamed k args → Arg.named k v ∈ args
  | [], k, v, h => absurd h (List.not_mem_nil _)
  | .pos s :: rest, k, v, h => by
    simp only [findNamed, List.filterMap_cons] at h
    exact List.mem_cons_of_mem _ (mem_findNamed rest k v h)
  | .named k2 v2 :: rest, k, v, h => by
    rw [findNamed_cons_named] at h
    by_cases hk : k2 = k
    · rw [if_pos hk] at h
      rcases List.mem_cons.mp h with rfl | h2
      · rw [hk]
        exact List.mem_cons_self _ _
      · exact List.mem_cons_of_mem _ (mem_findNamed rest k v h2)
    · rw [if_neg hk] at h
      exact List.mem_cons_of_mem _ (mem_findNamed rest k v h)

theorem fromListNamed_eval (args : List Arg)
    (hall : ∀ a ∈ args, ∃ v,
      a = Arg.named "format".toList v ∨ a = Arg.named "data".toList v)
    (hnd : (args.filterMap argKey).Nodup)
    (hfmt : ∀ v, Arg.named "format".toList v ∈ args →
      (mediaParse v).isSome = true) :
    fromListNamed args =
      .ok ((match (findNamed "format".toList args).head? with
            | some v => mediaParse v
            | none => none),
           (findNamed "data".toList args).head?) := by
  have hpos : args.any isPos = false := by
    rw [List.any_eq_false]
    intro a ha
    obtain ⟨v, hv⟩ := hall a ha
    rcases hv with rfl | rfl <;> simp [isPos]
  have hlf : (findNamed "format".toList args).length ≤ 1 :=
    findNamed_len_le_one args _ hnd
  have hld : (findNamed "data".toList args).length ≤ 1 :=
    findNamed_len_le_one args _ hnd
  have hdup : ¬ (2 ≤ (findNamed "format".toList args).length ∨
      2 ≤ (findNamed "data".toList args).length) := by omega
  unfold fromListNamed
  rw [hpos]
  simp only [Bool.false_eq_true, if_false, if_neg hdup]
  cases hh : (findNamed "format".toList args).head? with
  | none => rfl
  | some v =>
    have hvm : v ∈ findNamed "format".toList args := by
      cases hfn : findNamed "format".toList args with
      | nil => rw [hfn] at hh; simp at hh
      | cons a t =>
        rw [hfn] at hh
        injection hh with h1
        rw [← h1] at *
        exact List.mem_cons_self _ _
    have hvs := hfmt v (mem_findNamed args _ v hvm)
    obtain ⟨mt, hmt⟩ := Option.isSome_iff_exists.mp hvs
    simp [hmt]

theorem scanParts_some_cons (part : Str) (rest : List Str) (x : Str)
    (m d : Option Str) :
    scanParts (part :: rest) (some x) m d =
      (match dropPfx fmtEqStr part with
       | some rv =>
         match mediaParse (trimMatchesQA (trim rv)) with
         | some mt => scanParts rest (some x) (some mt) d
         | none => .error .unknownMedia
       | none =>
         match dropPfx dataEqStr part with
         | some rv => scanParts rest (some x) m (some (trimMatchesQA (trim rv)))
         | none => scanParts rest (some x) m d) := by
  simp only [scanParts]
  split
  next hq => exact absurd hq.2 (by simp)
  next => rfl

theorem scanParts_cons_quoted (part : Str) (rest : List Str) (m d : Option Str)
    (h : isQuoted part = true) :
    scanParts (part :: rest) none m d =
      scanParts rest (some (trimMatchesQ part)) m d := by
  simp only [scanParts]
  split
  next => rfl
  next hq => exact absurd ⟨h, by simp⟩ hq

theorem scan_fmt_step (v : Str) (rest : List Str) (x : Str) (m d : Option Str)
    (mt : Str) (hq : ¬ qc ∈ v) (ha : ¬ apos ∈ v) (hmt : mediaParse v = some mt) :
    scanParts (renderArg (Arg.named "format".toList v) :: rest) (some x) m d =
      scanParts rest (some x) (some mt) d := by
  rw [scanParts_some_cons]
  have hdq : dropPfx fmtEqStr (renderArg (Arg.named "format".toList v)) =
      some (' ' :: (qc :: (v ++ [qc]))) := rfl
  have htr : trimMatchesQA (trim (' ' :: (qc :: (v ++ [qc])))) = v := by
    rw [trim_space_quoted, trimMatchesQA_quoted v hq ha]
  simp only [hdq, htr, hmt]

theorem scan_data_step (v : Str) (rest : List Str) (x : Str) (m d : Option Str)
    (hq : ¬ qc ∈ v) (ha : ¬ apos ∈ v) :
    scanParts (renderArg (Arg.named "data".toList v) :: rest) (some x) m d =
      scanParts rest (some x) m (some v) := by
  rw [scanParts_some_cons]
  have hdf : dropPfx fmtEqStr (renderArg (Arg.named "data".toList v)) = none := rfl
  have hdd : dropPfx dataEqStr (renderArg (Arg.named "data".toList v)) =
      some (' ' :: (qc :: (v ++ [qc]))) := rfl
  have htr : trimMatchesQA (trim (' ' :: (qc :: (v ++ [qc])))) = v := by
    rw [trim_space_quoted, trimMatchesQA_quoted v hq ha]
  simp only [hdf, hdd, htr]

theorem scanRendered : ∀ (args : List Arg) (p0 : Str) (m0 d0 : Option Str),
    (∀ a ∈ args, ∃ v,
      (a = Arg.named "format".toList v ∨ a = Arg.named "data".toList v) ∧
      ¬ qc ∈ v ∧ ¬ apos ∈ v) →
    ((args.filterMap argKey).Nodup) →
    (∀ v, Arg.named "format".toList v ∈ args → (mediaParse v).isSome = true) →
    scanParts (args.map renderArg) (some p0) m0 d0 =
      .ok (some p0,
           (match (findNamed "format".toList args).head? with
            | some v => mediaParse v
            | none => m0),
           (match (findNamed "data".toList args).head? with
            | some v => some v
            | none => d0))
  | [], p0, m0, d0, _, _, _ => by simp [scanParts, findNamed]
  | a :: rest, p0, m0, d0, hall, hnd, hfmt => by
    obtain ⟨v, hav, hqv, hap⟩ := hall a (List.mem_cons_self _ _)
    rcases hav with rfl | rfl
    · have hmtS := hfmt v (List.mem_cons_self _ _)
      obtain ⟨mt, hmt⟩ := Option.isSome_iff_exists.mp hmtS
      rw [List.map_cons, scan_fmt_step v _ p0 m0 d0 mt hqv hap hmt]
      have hk : (("format".toList :: rest.filterMap argKey)).Nodup := by
        simpa [argKey, List.filterMap_cons] using hnd
      rw [List.nodup_cons] at hk
      have hrestf : findNamed "format".toList rest = [] :=
        findNamed_nil_of_not_mem _ rest hk.1
      rw [scanRendered rest p0 (some mt) d0
        (fun a2 ha2 => hall a2 (List.mem_cons_of_mem _ ha2)) hk.2
        (fun v2 hv2 => hfmt v2 (List.mem_cons_of_mem _ hv2))]
      rw [findNamed_cons_named, findNamed_cons_named]
      rw [if_pos rfl, if_neg (show ¬ "format".toList = "data".toList by decide)]
      have hrestf2 : findNamed ['f', 'o', 'r', 'm', 'a', 't'] rest = [] := hrestf
      simp [hrestf, hrestf2, hmt]
    · rw [List.map_cons, scan_data_step v _ p0 m0 d0 hqv hap]
      have hk : (("data".toList :: rest.filterMap argKey)).Nodup := by
        simpa [argKey, List.filterMap_cons] using hnd
      rw [List.nodup_cons] at hk
      have hrestd : findNamed "data".toList rest = [] :=
        findNamed_nil_of_not_mem _ rest hk.1
      rw [scanRendered rest p0 m0 (some v)
        (fun a2 ha2 => hall a2 (List.mem_cons_of_mem _ ha2)) hk.2
        (fun v2 hv2 => hfmt v2 (List.mem_cons_of_mem _ hv2))]
      rw [findNamed_cons_named, findNamed_cons_named]
      rw [if_pos rfl, if_neg (show ¬ "data".toList = "format".toList by decide)]
      have hrestd2 : findNamed ['d', 'a', 't', 'a'] rest = [] := hrestd
      simp [hrestd, hrestd2]

theorem parse_attr_method (name : Str) (m : Method)
    (h : methodOfName name = some m) (args : List Arg) :
    parse_attr name args = parseMethodRouteAttr m args := by
  unfold methodOfName at h
  cases hdp : dropPfx pfxProtect name with
  | some rest =>
    simp only [hdp] at h
    simp [parse_attr, hdp, h]
  | none =>
    simp only [hdp] at h
    simp [parse_attr, hdp, h]

theorem resolveMethodPath_method (name : Str) (m : Method)
    (h : methodOfName name = some m) (p? m? d? : Option Str) :
    resolveMethodPath name p? m? d? = resolvePath m p? m? d? := by
  unfold methodOfName at h
  cases hdp : dropPfx pfxProtect name with
  | some rest =>
    simp only [hdp] at h
    simp [resolveMethodPath, hdp, h]
  | none =>
    simp only [hdp] at h
    have hnr : ¬ name = "route".toList := by
      intro hr
      rw [hr] at h
      rw [show methodFromStr "route".toList = none from rfl] at h
      exact absurd h (by simp)
    have hnr2 : ¬ name = ['r', 'o', 'u', 't', 'e'] := hnr
    simp [resolveMethodPath, hdp, h, hnr, hnr2]

/-- C1: whenever the attribute name resolves to a method and the
string-splitting fallback recovers exactly the rendered structured
arguments (a positional path literal followed by quote-free format and
data named arguments with distinct keys and a known media type), the
primary structured parser and the fallback parser both succeed and
agree on the origin and hence on the extracted path_params,
query_params, path_multi_param and query_multi_params. -/
theorem c1_parser_agreement :
    ∀ (name p argsStr : Str) (m : Method) (args : List Arg) (o : Origin),
    methodOfName name = some m →
    splitParts argsStr = (Arg.pos p :: args).map renderArg →
    parseRoute p = some o →
    ¬ qc ∈ p →
    (∀ a ∈ args, ∃ v,
      (a = Arg.named "format".toList v ∨ a = Arg.named "data".toList v) ∧
      ¬ qc ∈ v ∧ ¬ apos ∈ v) →
    ((args.filterMap argKey).Nodup) →
    (∀ v, Arg.named "format".toList v ∈ args → (mediaParse v).isSome = true) →
    ∃ r1 r2 : Route,
      parse_attr name (Arg.pos p :: args) = .ok r1 ∧
      parseAttrFromAttr name argsStr = .ok r2 ∧
      r1.origin = r2.origin ∧
      pathParams r1 = pathParams r2 ∧
      queryParams r1 = queryParams r2 ∧
      pathMultiParam r1 = pathMultiParam r2 ∧
      queryMultiParams r1 = queryMultiParams r2 := by
  intro name p argsStr m args o hm hsplit hp hpq hall hnd hfmt
  have hid : ∀ x : Option Str,
      (match x with | some v => some v | none => (none : Option Str)) = x := by
    intro x
    cases x <;> rfl
  have hfl := fromListNamed_eval args
    (fun a ha => (hall a ha).imp fun v hv => hv.1) hnd hfmt
  have hprim : parse_attr name (Arg.pos p :: args) =
      .ok ⟨m, o,
        (match (findNamed "format".toList args).head? with
         | some v => mediaParse v
         | none => none),
        ((findNamed "data".toList args).head?).map trimAngle⟩ := by
    rw [parse_attr_method name m hm]
    simp [parseMethodRouteAttr, hp, hfl]
  have hpne : ¬ p = [] := by
    intro h0
    rw [h0] at hp
    exact absurd hp (by simp [parseRoute])
  have hfall : parseAttrFromAttr name argsStr =
      .ok ⟨m, o,
        (match (findNamed "format".toList args).head? with
         | some v => mediaParse v
         | none => none),
        ((findNamed "data".toList args).head?).map trimAngle⟩ := by
    unfold parseAttrFromAttr
    rw [hsplit, List.map_cons]
    have hq0 : isQuoted (renderArg (Arg.pos p)) = true := by
      simp [renderArg, isQuoted, getLast?_quoted]
    rw [scanParts_cons_quoted _ _ none none hq0]
    have htq : trimMatchesQ (renderArg (Arg.pos p)) = p :=
      trimMatchesQ_quoted p hpne hpq
    rw [htq]
    rw [scanRendered args p none none hall hnd hfmt]
    show resolveMethodPath name (some p)
        (match (findNamed "format".toList args).head? with
         | some v => mediaParse v
         | none => none)
        (match (findNamed "data".toList args).head? with
         | some v => some v
         | none => none) = _
    rw [hid, resolveMethodPath_method name m hm]
    simp [resolvePath, hp]
  refine ⟨_, _, hprim, hfall, rfl, rfl, rfl, rfl, rfl⟩

/-- Witness for C1 at the concrete attribute
get("/user/<id>?<q>", format = "json", data = "<d>"). -/
theorem c1_parser_agreement_witness :
    ∃ r1 r2 : Route,
      parse_attr "get".toList
          [Arg.pos "/user/<id>?<q>".toList,
           Arg.named "format".toList "json".toList,
           Arg.named "data".toList "<d>".toList] = .ok r1 ∧
      parseAttrFromAttr "get".toList
          (joinSep ", ".toList
            ([Arg.pos "/user/<id>?<q>".toList,
              Arg.named "format".toList "json".toList,
              Arg.named "data".toList "<d>".toList].map renderArg)) = .ok r2 ∧
      r1.origin = r2.origin ∧
      pathParams r1 = pathParams r2 ∧
      queryParams r1 = queryParams r2 ∧
      pathMultiParam r1 = pathMultiParam r2 ∧
      queryMultiParams r1 = queryMultiParams r2 :=
  c1_parser_agreement "get".toList "/user/<id>?<q>".toList
    (joinSep ", ".toList
      ([Arg.pos "/user/<id>?<q>".toList,
        Arg.named "format".toList "json".toList,
        Arg.named "data".toList "<d>".toList].map renderArg))
    .get
    [Arg.named "format".toList "json".toList,
     Arg.named "data".toList "<d>".toList]
    ⟨"/user/<id>".toList, some "<q>".toList⟩
    (by decide) (by decide) (by decide) (by decide)
    (by
      intro a ha
      rcases List.mem_cons.mp ha with rfl | ha2
      · exact ⟨"json".toList, Or.inl rfl, by decide, by decide⟩
      · rcases List.mem_cons.mp ha2 with rfl | ha3
        · exact ⟨"<d>".toList, Or.inr rfl, by decide, by decide⟩
        · exact absurd ha3 (List.not_mem_nil _))
    (by decide)
    (by
      intro v hv
      rcases List.mem_cons.mp hv with he | hv2
      · injection he with hk hv3
        subst hv3
        decide
      · rcases List.mem_cons.mp hv2 with he2 | hv3
        · injection he2 with hk2 hv4
          exact absurd hk2 (by decide)
        · exact absurd hv3 (List.not_mem_nil _))

/-- Witness for C4: on the concrete recognized attribute get("/a"),
parse_attrs runs the fallback parser, and the parse succeeds with all
four failure conditions false. -/
theorem c4_error_exactness_witness :
    parseAttrs [("get".toList, (qc :: '/' :: 'a' :: [qc] : Str))] =
      parseAttrFromAttr "get".toList (qc :: '/' :: 'a' :: [qc]) :=
  (c4_error_exactness "get".toList (qc :: '/' :: 'a' :: [qc])).1 (by decide)

/-- Witness for C2 at the spec's worked example. -/
theorem c2_merge_paths_witness :
    lookupA (mergePaths [("/base/x".toList, { get := some ⟨some "g".toList⟩ })]
        "/base/".toList [("/x".toList, { post := some ⟨some "p".toList⟩ })])
      (rewriteKey "/base/".toList "/x".toList) =
      some (match lookupA [("/base/x".toList, { get := some ⟨some "g".toList⟩ })]
              (rewriteKey "/base/".toList "/x".toList) with
            | some ex => mergePathItem ex { post := some ⟨some "p".toList⟩ }
            | none => { post := some ⟨some "p".toList⟩ }) :=
  c2_merge_paths.1 [("/base/x".toList, { get := some ⟨some "g".toList⟩ })]
    [("/x".toList, { post := some ⟨some "p".toList⟩ })] "/base/".toList
    "/x".toList { post := some ⟨some "p".toList⟩ } (by decide)
    (List.mem_singleton.mpr rfl)

end Okapi
